import Mathlib

/-!
Verification of the js2p8 cartridge decompressor (`src/js2p8.py`).

The embedding mirrors the Python source: `BitReader` with `read_bit` /
`read_bits` (LSB-first), and `decompress`, whose unbounded `while` loops
become fuel-indexed recursive functions (`readUnary`, `rawRun`,
`readLength`, `decompressLoop`).  `none` marks fuel exhaustion; a separate
theorem shows the fuel chosen by `decompress` always suffices, so the
embedding is total on the same inputs as the source.  Errors raised by the
Python code become `Except Err` values.
-/

namespace Js2p8

/-- The three failure conditions of the decoder: reading past the end of
the input (`ValueError "Input data exhausted"`), a back-reference whose
start would be negative (`ValueError "Invalid offset"`), and an MTF lookup
outside the table (Python `IndexError` from `mtf[index]`). -/
inductive Err where
  | inputExhausted
  | invalidOffset
  | invalidRank
deriving DecidableEq, Repr

/-- State of `BitReader.__init__`: a byte buffer with a byte cursor and a bit cursor
(0 = LSB, 7 = MSB). -/
structure BitReader where
  data : List Nat
  byteIndex : Nat
  bitIndex : Nat
deriving DecidableEq, Repr

/-- Source `BitReader.read_bit`: fail when the byte cursor is past the end,
otherwise return `(byte >> bit_index) & 1` and advance, rolling into the
next byte after bit 7. -/
def read_bit (r : BitReader) : Except Err (Nat × BitReader) :=
  if r.data.length ≤ r.byteIndex then .error .inputExhausted
  else if r.bitIndex + 1 = 8 then
    .ok ((r.data.getD r.byteIndex 0 >>> r.bitIndex) &&& 1,
      ⟨r.data, r.byteIndex + 1, 0⟩)
  else
    .ok ((r.data.getD r.byteIndex 0 >>> r.bitIndex) &&& 1,
      ⟨r.data, r.byteIndex, r.bitIndex + 1⟩)

/-- The loop body of `BitReader.read_bits`: `value |= bit << i`, LSB-first. -/
def read_bits_aux (r : BitReader) (n i value : Nat) :
    Except Err (Nat × BitReader) :=
  match n with
  | 0 => .ok (value, r)
  | n + 1 =>
    match read_bit r with
    | .error e => .error e
    | .ok (bit, r') => read_bits_aux r' n (i + 1) (value ||| (bit <<< i))

/-- Source `BitReader.read_bits(n)`: assemble `n` bits LSB-first. -/
def read_bits (r : BitReader) (n : Nat) : Except Err (Nat × BitReader) :=
  read_bits_aux r n 0 0

/-- The MTF index computed for a literal token:
`index = bits_val + (unary_mask << 4)` with `unary_mask = (1 << unary) - 1`. -/
def literalIndex (u extra : Nat) : Nat :=
  extra + (((1 <<< u) - 1) <<< 4)

/-- Source lines `byte_val = mtf[index]; del mtf[index]; mtf.insert(0, byte_val)`.
`none` models the `IndexError` when `index` is out of range. -/
def mtfApply (mtf : List Nat) (index : Nat) : Option (Nat × List Nat) :=
  match mtf.get? index with
  | none => none
  | some b => some (b, b :: mtf.eraseIdx index)

/-- The unary loop of the literal case: count consecutive 1 bits until a
0 bit terminates. -/
def readUnary (fuel : Nat) (r : BitReader) :
    Option (Except Err (Nat × BitReader)) :=
  match fuel with
  | 0 => none
  | fuel + 1 =>
    match read_bit r with
    | .error e => some (.error e)
    | .ok (b, r') =>
      if b = 1 then
        match readUnary fuel r' with
        | none => none
        | some (.error e) => some (.error e)
        | some (.ok (u, r'')) => some (.ok (u + 1, r''))
      else some (.ok (0, r'))

/-- The uncompressed-block loop: read one byte at a time; a zero byte ends
the run without being emitted; stop early once the target length is
reached. -/
def rawRun (fuel n : Nat) (output : List Nat) (r : BitReader) :
    Option (Except Err (List Nat × BitReader)) :=
  match fuel with
  | 0 => none
  | fuel + 1 =>
    match read_bits r 8 with
    | .error e => some (.error e)
    | .ok (b, r') =>
      if b = 0 then some (.ok (output, r'))
      else
        if n ≤ (output ++ [b]).length then some (.ok (output ++ [b], r'))
        else rawRun fuel n (output ++ [b]) r'

/-- The length loop of a back-reference: add 3-bit groups, continuing
while a group equals 7.  Called with accumulator 3. -/
def readLength (fuel acc : Nat) (r : BitReader) :
    Option (Except Err (Nat × BitReader)) :=
  match fuel with
  | 0 => none
  | fuel + 1 =>
    match read_bits r 3 with
    | .error e => some (.error e)
    | .ok (part, r') =>
      if part = 7 then readLength fuel (acc + part) r'
      else some (.ok (acc + part, r'))

/-- The copy loop of a back-reference:
`for i in range(length): if len(output) >= n: break;
output.append(output[start + i % offset])`. -/
def copyLoop (remaining i n start offset : Nat) (output : List Nat) :
    List Nat :=
  match remaining with
  | 0 => output
  | remaining + 1 =>
    if n ≤ output.length then output
    else copyLoop remaining (i + 1) n start offset
      (output ++ [output.getD (start + i % offset) 0])

/-- Offset-width selection: up to two selector bits choose 5, 10 or 15
offset bits. -/
def readOffsetWidth (r : BitReader) : Except Err (Nat × BitReader) :=
  match read_bit r with
  | .error e => .error e
  | .ok (b, r1) =>
    if b = 1 then
      match read_bit r1 with
      | .error e => .error e
      | .ok (b2, r2) => if b2 = 1 then .ok (5, r2) else .ok (10, r2)
    else .ok (15, r1)

/-- The LZ77 branch of the main loop (header bit 0): select the offset
width, read the 1-based offset, dispatch to the raw-run escape when
`offset_bits == 10 and offset == 1`, otherwise decode a length, check
`start >= 0`, and copy cyclically from the output. -/
def lzStep (fuel n : Nat) (output : List Nat) (r : BitReader) :
    Option (Except Err (List Nat × BitReader)) :=
  match readOffsetWidth r with
  | .error e => some (.error e)
  | .ok (offsetBits, r1) =>
    match read_bits r1 offsetBits with
    | .error e => some (.error e)
    | .ok (v, r2) =>
      if offsetBits = 10 ∧ v + 1 = 1 then rawRun fuel n output r2
      else
        match readLength fuel 3 r2 with
        | none => none
        | some (.error e) => some (.error e)
        | some (.ok (len, r3)) =>
          if output.length < v + 1 then some (.error .invalidOffset)
          else
            some (.ok
              (copyLoop len 0 n (output.length - (v + 1)) (v + 1) output, r3))

/-- The literal branch of the main loop (header bit 1): unary prefix,
`4 + u` extra bits, MTF lookup, move-to-front, append. -/
def literalStep (fuel : Nat) (mtf output : List Nat) (r : BitReader) :
    Option (Except Err (List Nat × List Nat × BitReader)) :=
  match readUnary fuel r with
  | none => none
  | some (.error e) => some (.error e)
  | some (.ok (u, r1)) =>
    match read_bits r1 (4 + u) with
    | .error e => some (.error e)
    | .ok (extra, r2) =>
      match mtfApply mtf (literalIndex u extra) with
      | none => some (.error .invalidRank)
      | some (b, mtf') => some (.ok (mtf', output ++ [b], r2))

/-- The main `while len(output) < decompressed_len` loop of `decompress`. -/
def decompressLoop (fuel n : Nat) (mtf output : List Nat) (r : BitReader) :
    Option (Except Err (List Nat)) :=
  match fuel with
  | 0 => none
  | fuel + 1 =>
    if n ≤ output.length then some (.ok output)
    else
      match read_bit r with
      | .error e => some (.error e)
      | .ok (b, r1) =>
        if b = 1 then
          match literalStep fuel mtf output r1 with
          | none => none
          | some (.error e) => some (.error e)
          | some (.ok (mtf', output', r2)) =>
            decompressLoop fuel n mtf' output' r2
        else
          match lzStep fuel n output r1 with
          | none => none
          | some (.error e) => some (.error e)
          | some (.ok (output', r2)) => decompressLoop fuel n mtf output' r2

/-- Source `decompress(compressed_data, decompressed_len)`: MTF table starts as
`[0, 1, ..., 255]`, the output empty, the cursor at the first bit.  The
fuel `8 * |data| + 1` is shown sufficient below. -/
def decompress (c : List Nat) (n : Nat) : Option (Except Err (List Nat)) :=
  decompressLoop (8 * c.length + 1) n (List.range 256) [] ⟨c, 0, 0⟩

/-! ### Reader position lemmas -/

/-- Absolute bit position of the cursor. -/
def pos (r : BitReader) : Nat := 8 * r.byteIndex + r.bitIndex

lemma read_bit_ok_spec {r : BitReader} {b : Nat} {r' : BitReader}
    (hw : r.bitIndex < 8) (h : read_bit r = .ok (b, r')) :
    r'.bitIndex < 8 ∧ r'.data = r.data ∧ pos r' = pos r + 1 ∧
      pos r < 8 * r.data.length ∧ b ≤ 1 := by
  unfold read_bit at h
  split at h
  · exact absurd h (by simp)
  case isFalse hlen =>
    split at h
    case isTrue h8 =>
      simp only [Except.ok.injEq, Prod.mk.injEq] at h
      obtain ⟨hb, hr⟩ := h
      subst hr
      refine ⟨by simp, rfl, ?_, ?_, hb ▸ Nat.and_le_right⟩
      · simp only [pos]; omega
      · simp only [pos]; omega
    case isFalse h8 =>
      simp only [Except.ok.injEq, Prod.mk.injEq] at h
      obtain ⟨hb, hr⟩ := h
      subst hr
      refine ⟨by simp; omega, rfl, ?_, ?_, hb ▸ Nat.and_le_right⟩
      · simp only [pos]; omega
      · simp only [pos]; omega

lemma read_bits_aux_ok_spec {n : Nat} :
    ∀ {r : BitReader} {i value v : Nat} {r' : BitReader},
      r.bitIndex < 8 → read_bits_aux r n i value = .ok (v, r') →
      r'.bitIndex < 8 ∧ r'.data = r.data ∧ pos r' = pos r + n := by
  induction n with
  | zero =>
    intro r i value v r' hw h
    simp only [read_bits_aux, Except.ok.injEq, Prod.mk.injEq] at h
    obtain ⟨-, hr⟩ := h
    subst hr
    exact ⟨hw, rfl, rfl⟩
  | succ n ih =>
    intro r i value v r' hw h
    simp only [read_bits_aux] at h
    cases hbit : read_bit r with
    | error e => rw [hbit] at h; exact absurd h (by simp)
    | ok p =>
      obtain ⟨b, r1⟩ := p
      rw [hbit] at h
      obtain ⟨hw1, hd1, hp1, -, -⟩ := read_bit_ok_spec hw hbit
      obtain ⟨hw', hd', hp'⟩ := ih hw1 h
      exact ⟨hw', hd'.trans hd1, by omega⟩

lemma read_bits_ok_spec {r : BitReader} {n v : Nat} {r' : BitReader}
    (hw : r.bitIndex < 8) (h : read_bits r n = .ok (v, r')) :
    r'.bitIndex < 8 ∧ r'.data = r.data ∧ pos r' = pos r + n :=
  read_bits_aux_ok_spec hw h

lemma read_bits_pos_lt {r : BitReader} {n v : Nat} {r' : BitReader}
    (hw : r.bitIndex < 8) (hn : 0 < n) (h : read_bits r n = .ok (v, r')) :
    pos r < 8 * r.data.length := by
  obtain ⟨m, rfl⟩ : ∃ m, n = m + 1 := ⟨n - 1, by omega⟩
  simp only [read_bits, read_bits_aux] at h
  cases hbit : read_bit r with
  | error e => rw [hbit] at h; exact absurd h (by simp)
  | ok p =>
    obtain ⟨b, r1⟩ := p
    exact (read_bit_ok_spec hw hbit).2.2.2.1

lemma read_bits_aux_lt {n : Nat} :
    ∀ {r : BitReader} {i value v : Nat} {r' : BitReader},
      r.bitIndex < 8 → value < 2 ^ i → read_bits_aux r n i value = .ok (v, r') →
      v < 2 ^ (i + n) := by
  induction n with
  | zero =>
    intro r i value v r' hw hv h
    simp only [read_bits_aux, Except.ok.injEq, Prod.mk.injEq] at h
    obtain ⟨hval, -⟩ := h
    simpa [← hval] using hv
  | succ n ih =>
    intro r i value v r' hw hv h
    simp only [read_bits_aux] at h
    cases hbit : read_bit r with
    | error e => rw [hbit] at h; exact absurd h (by simp)
    | ok p =>
      obtain ⟨b, r1⟩ := p
      rw [hbit] at h
      obtain ⟨hw1, -, -, -, hb⟩ := read_bit_ok_spec hw hbit
      have hv' : value ||| (b <<< i) < 2 ^ (i + 1) := by
        apply Nat.or_lt_two_pow
        · exact lt_of_lt_of_le hv (Nat.pow_le_pow_right (by omega) (by omega))
        · rw [Nat.shiftLeft_eq]
          calc b * 2 ^ i ≤ 1 * 2 ^ i := by
                exact Nat.mul_le_mul_right _ hb
            _ < 2 ^ (i + 1) := by rw [one_mul, pow_succ]; omega
      have := ih hw1 hv' h
      have harith : i + 1 + n = i + (n + 1) := by omega
      rwa [harith] at this

lemma read_bits_lt {r : BitReader} {n v : Nat} {r' : BitReader}
    (hw : r.bitIndex < 8) (h : read_bits r n = .ok (v, r')) : v < 2 ^ n := by
  unfold read_bits at h
  have := read_bits_aux_lt hw (by simp) h
  simpa using this

/-! ### Fuel sufficiency and cursor monotonicity -/

lemma readUnary_ok_spec :
    ∀ (fuel : Nat) {r : BitReader} {u : Nat} {r' : BitReader},
      r.bitIndex < 8 → readUnary fuel r = some (.ok (u, r')) →
      r'.bitIndex < 8 ∧ r'.data = r.data ∧ pos r + 1 ≤ pos r' := by
  intro fuel
  induction fuel with
  | zero => intro r u r' hw h; simp [readUnary] at h
  | succ fuel ih =>
    intro r u r' hw h
    simp only [readUnary] at h
    split at h
    · simp at h
    next b r1 heq =>
      obtain ⟨hw1, hd1, hp1, -, -⟩ := read_bit_ok_spec hw heq
      split at h
      · split at h
        · simp at h
        · simp at h
        next u0 r2 heq2 =>
          simp only [Option.some.injEq, Except.ok.injEq, Prod.mk.injEq] at h
          obtain ⟨-, hr⟩ := h
          subst hr
          obtain ⟨hw2, hd2, hp2⟩ := ih hw1 heq2
          exact ⟨hw2, hd2.trans hd1, by omega⟩
      · simp only [Option.some.injEq, Except.ok.injEq, Prod.mk.injEq] at h
        obtain ⟨-, hr⟩ := h
        subst hr
        exact ⟨hw1, hd1, by omega⟩

lemma readUnary_suff :
    ∀ (fuel : Nat) {r : BitReader},
      r.bitIndex < 8 → 8 * r.data.length - pos r < fuel →
      readUnary fuel r ≠ none := by
  intro fuel
  induction fuel with
  | zero => intro r hw hf; exact absurd hf (Nat.not_lt_zero _)
  | succ fuel ih =>
    intro r hw hf
    simp only [readUnary]
    split
    · simp
    next b r1 heq =>
      obtain ⟨hw1, hd1, hp1, hlt, -⟩ := read_bit_ok_spec hw heq
      split
      · have hne := ih hw1 (by rw [hd1]; omega)
        split
        next hnone => exact absurd hnone hne
        · simp
        · simp
      · simp

lemma rawRun_ok_spec :
    ∀ (fuel : Nat) {n : Nat} {output : List Nat} {r : BitReader}
      {out' : List Nat} {r' : BitReader},
      r.bitIndex < 8 → rawRun fuel n output r = some (.ok (out', r')) →
      r'.bitIndex < 8 ∧ r'.data = r.data ∧ pos r ≤ pos r' := by
  intro fuel
  induction fuel with
  | zero => intro n output r out' r' hw h; simp [rawRun] at h
  | succ fuel ih =>
    intro n output r out' r' hw h
    simp only [rawRun] at h
    split at h
    · simp at h
    next b r1 heq =>
      obtain ⟨hw1, hd1, hp1⟩ := read_bits_ok_spec hw heq
      split at h
      · simp only [Option.some.injEq, Except.ok.injEq, Prod.mk.injEq] at h
        obtain ⟨-, hr⟩ := h
        subst hr
        exact ⟨hw1, hd1, by omega⟩
      · split at h
        · simp only [Option.some.injEq, Except.ok.injEq, Prod.mk.injEq] at h
          obtain ⟨-, hr⟩ := h
          subst hr
          exact ⟨hw1, hd1, by omega⟩
        · obtain ⟨hw2, hd2, hp2⟩ := ih hw1 h
          exact ⟨hw2, hd2.trans hd1, by omega⟩

lemma rawRun_suff :
    ∀ (fuel : Nat) {n : Nat} {output : List Nat} {r : BitReader},
      r.bitIndex < 8 → 8 * r.data.length - pos r < fuel →
      rawRun fuel n output r ≠ none := by
  intro fuel
  induction fuel with
  | zero => intro n output r hw hf; exact absurd hf (Nat.not_lt_zero _)
  | succ fuel ih =>
    intro n output r hw hf
    simp only [rawRun]
    split
    · simp
    next b r1 heq =>
      obtain ⟨hw1, hd1, hp1⟩ := read_bits_ok_spec hw heq
      have hlt := read_bits_pos_lt hw (by omega) heq
      split
      · simp
      · split
        · simp
        · exact ih hw1 (by rw [hd1]; omega)

lemma readLength_ok_spec :
    ∀ (fuel : Nat) {acc : Nat} {r : BitReader} {len : Nat} {r' : BitReader},
      r.bitIndex < 8 → readLength fuel acc r = some (.ok (len, r')) →
      r'.bitIndex < 8 ∧ r'.data = r.data ∧ pos r ≤ pos r' := by
  intro fuel
  induction fuel with
  | zero => intro acc r len r' hw h; simp [readLength] at h
  | succ fuel ih =>
    intro acc r len r' hw h
    simp only [readLength] at h
    split at h
    · simp at h
    next part r1 heq =>
      obtain ⟨hw1, hd1, hp1⟩ := read_bits_ok_spec hw heq
      split at h
      · obtain ⟨hw2, hd2, hp2⟩ := ih hw1 h
        exact ⟨hw2, hd2.trans hd1, by omega⟩
      · simp only [Option.some.injEq, Except.ok.injEq, Prod.mk.injEq] at h
        obtain ⟨-, hr⟩ := h
        subst hr
        exact ⟨hw1, hd1, by omega⟩

lemma readLength_suff :
    ∀ (fuel : Nat) {acc : Nat} {r : BitReader},
      r.bitIndex < 8 → 8 * r.data.length - pos r < fuel →
      readLength fuel acc r ≠ none := by
  intro fuel
  induction fuel with
  | zero => intro acc r hw hf; exact absurd hf (Nat.not_lt_zero _)
  | succ fuel ih =>
    intro acc r hw hf
    simp only [readLength]
    split
    · simp
    next part r1 heq =>
      obtain ⟨hw1, hd1, hp1⟩ := read_bits_ok_spec hw heq
      have hlt := read_bits_pos_lt hw (by omega) heq
      split
      · exact ih hw1 (by rw [hd1]; omega)
      · simp

lemma readOffsetWidth_ok_spec {r : BitReader} {w : Nat} {r' : BitReader}
    (hw : r.bitIndex < 8) (h : readOffsetWidth r = .ok (w, r')) :
    r'.bitIndex < 8 ∧ r'.data = r.data ∧ pos r ≤ pos r' := by
  simp only [readOffsetWidth] at h
  split at h
  · simp at h
  next b r1 heq =>
    obtain ⟨hw1, hd1, hp1, -, -⟩ := read_bit_ok_spec hw heq
    split at h
    · split at h
      · simp at h
      next b2 r2 heq2 =>
        obtain ⟨hw2, hd2, hp2, -, -⟩ := read_bit_ok_spec hw1 heq2
        split at h <;>
          · simp only [Except.ok.injEq, Prod.mk.injEq] at h
            obtain ⟨-, hr⟩ := h
            subst hr
            exact ⟨hw2, hd2.trans hd1, by omega⟩
    · simp only [Except.ok.injEq, Prod.mk.injEq] at h
      obtain ⟨-, hr⟩ := h
      subst hr
      exact ⟨hw1, hd1, by omega⟩

lemma lzStep_ok_spec {fuel n : Nat} {output : List Nat} {r : BitReader}
    {out' : List Nat} {r' : BitReader}
    (hw : r.bitIndex < 8) (h : lzStep fuel n output r = some (.ok (out', r'))) :
    r'.bitIndex < 8 ∧ r'.data = r.data ∧ pos r ≤ pos r' := by
  simp only [lzStep] at h
  split at h
  · simp at h
  next w r1 heq =>
    obtain ⟨hw1, hd1, hp1⟩ := readOffsetWidth_ok_spec hw heq
    split at h
    · simp at h
    next v r2 heq2 =>
      obtain ⟨hw2, hd2, hp2⟩ := read_bits_ok_spec hw1 heq2
      split at h
      · obtain ⟨hw3, hd3, hp3⟩ := rawRun_ok_spec fuel hw2 h
        exact ⟨hw3, (hd3.trans hd2).trans hd1, by omega⟩
      · split at h
        · simp at h
        · simp at h
        next len r3 heq3 =>
          obtain ⟨hw3, hd3, hp3⟩ := readLength_ok_spec fuel hw2 heq3
          split at h
          · simp at h
          · simp only [Option.some.injEq, Except.ok.injEq, Prod.mk.injEq] at h
            obtain ⟨-, hr⟩ := h
            subst hr
            exact ⟨hw3, (hd3.trans hd2).trans hd1, by omega⟩

lemma lzStep_suff {fuel n : Nat} {output : List Nat} {r : BitReader}
    (hw : r.bitIndex < 8) (hf : 8 * r.data.length - pos r < fuel) :
    lzStep fuel n output r ≠ none := by
  simp only [lzStep]
  split
  · simp
  next w r1 heq =>
    obtain ⟨hw1, hd1, hp1⟩ := readOffsetWidth_ok_spec hw heq
    split
    · simp
    next v r2 heq2 =>
      obtain ⟨hw2, hd2, hp2⟩ := read_bits_ok_spec hw1 heq2
      have hdd : r2.data = r.data := hd2.trans hd1
      split
      · exact rawRun_suff fuel hw2 (by rw [hdd]; omega)
      · have hne := @readLength_suff fuel 3 r2 hw2 (by rw [hdd]; omega)
        split
        next hnone => exact absurd hnone hne
        · simp
        · split <;> simp

lemma literalStep_ok_spec {fuel : Nat} {mtf output : List Nat} {r : BitReader}
    {mtf' output' : List Nat} {r' : BitReader}
    (hw : r.bitIndex < 8)
    (h : literalStep fuel mtf output r = some (.ok (mtf', output', r'))) :
    r'.bitIndex < 8 ∧ r'.data = r.data ∧ pos r ≤ pos r' := by
  simp only [literalStep] at h
  split at h
  · simp at h
  · simp at h
  next u r1 heq =>
    obtain ⟨hw1, hd1, hp1⟩ := readUnary_ok_spec fuel hw heq
    split at h
    · simp at h
    next extra r2 heq2 =>
      obtain ⟨hw2, hd2, hp2⟩ := read_bits_ok_spec hw1 heq2
      split at h
      · simp at h
      · simp only [Option.some.injEq, Except.ok.injEq, Prod.mk.injEq] at h
        obtain ⟨-, -, hr⟩ := h
        subst hr
        exact ⟨hw2, hd2.trans hd1, by omega⟩

lemma literalStep_suff {fuel : Nat} {mtf output : List Nat} {r : BitReader}
    (hw : r.bitIndex < 8) (hf : 8 * r.data.length - pos r < fuel) :
    literalStep fuel mtf output r ≠ none := by
  simp only [literalStep]
  have hne := readUnary_suff fuel hw hf
  split
  next hnone => exact absurd hnone hne
  · simp
  next u r1 heq =>
    split
    · simp
    · split <;> simp

lemma decompressLoop_suff :
    ∀ (fuel : Nat) {n : Nat} {mtf output : List Nat} {r : BitReader},
      r.bitIndex < 8 → 8 * r.data.length - pos r < fuel →
      decompressLoop fuel n mtf output r ≠ none := by
  intro fuel
  induction fuel with
  | zero => intro n mtf output r hw hf; exact absurd hf (Nat.not_lt_zero _)
  | succ fuel ih =>
    intro n mtf output r hw hf
    simp only [decompressLoop]
    split
    · simp
    · split
      · simp
      next b r1 heq =>
        obtain ⟨hw1, hd1, hp1, hlt, -⟩ := read_bit_ok_spec hw heq
        split
        · have hne := @literalStep_suff fuel mtf output r1 hw1
            (by rw [hd1]; omega)
          split
          next hnone => exact absurd hnone hne
          · simp
          next mtf' out' r2 heq2 =>
            obtain ⟨hw2, hd2, hp2⟩ := literalStep_ok_spec hw1 heq2
            exact ih hw2 (by rw [hd2, hd1]; omega)
        · have hne := @lzStep_suff fuel n output r1 hw1
            (by rw [hd1]; omega)
          split
          next hnone => exact absurd hnone hne
          · simp
          next out' r2 heq2 =>
            obtain ⟨hw2, hd2, hp2⟩ := lzStep_ok_spec hw1 heq2
            exact ih hw2 (by rw [hd2, hd1]; omega)

/-! ### Output-length invariants -/

lemma copyLoop_length_le :
    ∀ (remaining : Nat) {i n start offset : Nat} {output : List Nat},
      output.length ≤ n →
      (copyLoop remaining i n start offset output).length ≤ n := by
  intro remaining
  induction remaining with
  | zero => intro i n start offset output h; simpa [copyLoop] using h
  | succ remaining ih =>
    intro i n start offset output h
    simp only [copyLoop]
    split
    · exact h
    next hlen => exact ih (by simp; omega)

lemma rawRun_length_le :
    ∀ (fuel : Nat) {n : Nat} {output : List Nat} {r : BitReader}
      {out' : List Nat} {r' : BitReader},
      output.length < n → rawRun fuel n output r = some (.ok (out', r')) →
      out'.length ≤ n := by
  intro fuel
  induction fuel with
  | zero => intro n output r out' r' hlen h; simp [rawRun] at h
  | succ fuel ih =>
    intro n output r out' r' hlen h
    simp only [rawRun] at h
    split at h
    · simp at h
    next b r1 heq =>
      split at h
      · simp only [Option.some.injEq, Except.ok.injEq, Prod.mk.injEq] at h
        obtain ⟨hout, -⟩ := h
        subst hout
        omega
      · split at h
        next hstop =>
          simp only [Option.some.injEq, Except.ok.injEq, Prod.mk.injEq] at h
          obtain ⟨hout, -⟩ := h
          subst hout
          simp
          omega
        next hgo =>
          exact ih (by simp at hgo ⊢; omega) h

lemma literalStep_out_len {fuel : Nat} {mtf output : List Nat} {r : BitReader}
    {mtf' output' : List Nat} {r' : BitReader}
    (h : literalStep fuel mtf output r = some (.ok (mtf', output', r'))) :
    output'.length = output.length + 1 := by
  simp only [literalStep] at h
  split at h
  · simp at h
  · simp at h
  next u r1 heq =>
    split at h
    · simp at h
    next extra r2 heq2 =>
      split at h
      · simp at h
      · simp only [Option.some.injEq, Except.ok.injEq, Prod.mk.injEq] at h
        obtain ⟨-, hout, -⟩ := h
        subst hout
        simp

lemma lzStep_length_le {fuel n : Nat} {output : List Nat} {r : BitReader}
    {out' : List Nat} {r' : BitReader}
    (hlen : output.length < n)
    (h : lzStep fuel n output r = some (.ok (out', r'))) :
    out'.length ≤ n := by
  simp only [lzStep] at h
  split at h
  · simp at h
  next w r1 heq =>
    split at h
    · simp at h
    next v r2 heq2 =>
      split at h
      · exact rawRun_length_le fuel hlen h
      · split at h
        · simp at h
        · simp at h
        next len r3 heq3 =>
          split at h
          · simp at h
          · simp only [Option.some.injEq, Except.ok.injEq, Prod.mk.injEq] at h
            obtain ⟨hout, -⟩ := h
            subst hout
            exact copyLoop_length_le len (by omega)

lemma decompressLoop_length :
    ∀ (fuel : Nat) {n : Nat} {mtf output : List Nat} {r : BitReader}
      {out : List Nat},
      output.length ≤ n → decompressLoop fuel n mtf output r = some (.ok out) →
      out.length = n := by
  intro fuel
  induction fuel with
  | zero => intro n mtf output r out hlen h; simp [decompressLoop] at h
  | succ fuel ih =>
    intro n mtf output r out hlen h
    simp only [decompressLoop] at h
    split at h
    next hdone =>
      simp only [Option.some.injEq, Except.ok.injEq] at h
      subst h
      omega
    next hmore =>
      split at h
      · simp at h
      next b r1 heq =>
        split at h
        · split at h
          · simp at h
          · simp at h
          next mtf' out1 r2 heq2 =>
            have h1 := literalStep_out_len heq2
            exact ih (by omega) h
        · split at h
          · simp at h
          · simp at h
          next out1 r2 heq2 =>
            have h1 := lzStep_length_le (by omega) heq2
            exact ih h1 h

/-- Removing the element found at index `i` and re-consing it in front is a
permutation of the original list. -/
lemma cons_eraseIdx_perm :
    ∀ {l : List Nat} {i b : Nat}, l.get? i = some b →
      (b :: l.eraseIdx i).Perm l := by
  intro l
  induction l with
  | nil => intro i b h; simp at h
  | cons a t ih =>
    intro i b h
    cases i with
    | zero =>
      simp only [List.get?] at h
      obtain rfl : a = b := by injection h
      simp [List.eraseIdx]
    | succ i =>
      simp only [List.get?] at h
      show (b :: a :: t.eraseIdx i).Perm (a :: t)
      exact (List.Perm.swap a b _).trans ((ih h).cons a)

/-! ### Claim theorems -/

/-- C10: `decompress` terminates on every input: for every compressed byte
buffer and every target length the call returns a result (success or
reported failure) after finitely many steps — the fuel `8 * |c| + 1` chosen
by `decompress` is always sufficient, because every iteration of the main
loop strictly advances the bit cursor, which is bounded by 8 times the
buffer length, past which reading fails. -/
theorem decompress_total (c : List Nat) (n : Nat) :
    ∃ res, decompress c n = some res := by
  have h := @decompressLoop_suff (8 * c.length + 1) n
    (List.range 256) [] ⟨c, 0, 0⟩
    (by show (0 : Nat) < 8; decide)
    (by show 8 * c.length - pos ⟨c, 0, 0⟩ < 8 * c.length + 1
        simp only [pos]
        omega)
  exact Option.ne_none_iff_exists'.mp h

/-- C1: whenever `decompress c n` returns a result, the result has length
exactly `n`, never more and never less: every branch of the decoder checks
the target length before or immediately after each appended byte, so a
back-reference copy or raw run is truncated the moment the target is
reached. -/
theorem decompress_length_exact (c : List Nat) (n : Nat) (out : List Nat)
    (h : decompress c n = some (.ok out)) : out.length = n :=
  decompressLoop_length (8 * c.length + 1) (by simp) h

/-- Witness for C1 at a concrete input: the stream decoding a raw run
`[0x41, 0x42]` followed by an MTF literal, with target length 3. -/
theorem decompress_length_exact_witness :
    decompress [2, 32, 72, 8, 160, 2] 3 = some (.ok [65, 66, 5]) ∧
      ([65, 66, 5] : List Nat).length = 3 :=
  ⟨rfl, decompress_length_exact [2, 32, 72, 8, 160, 2] 3 [65, 66, 5] rfl⟩

/-- C2: the decoder's MTF step preserves the table invariant: `decompress`
starts the table as `[0, 1, ..., 255]` (`List.range 256`), and every
successful literal decode on a table that is a permutation of `0..255`
yields a table that is again a permutation of `0..255`, with the
just-decoded byte at rank 0 and the other 255 values keeping their
relative order (the rest of the table is the old table with the accessed
rank deleted). -/
theorem mtf_invariant (mtf : List Nat) (index b : Nat) (mtf' : List Nat)
    (hperm : mtf.Perm (List.range 256))
    (h : mtfApply mtf index = some (b, mtf')) :
    mtf'.Perm (List.range 256) ∧ mtf'.get? 0 = some b ∧
      mtf'.tail = mtf.eraseIdx index := by
  simp only [mtfApply] at h
  split at h
  · simp at h
  next v hget =>
    simp only [Option.some.injEq, Prod.mk.injEq] at h
    obtain ⟨hb, hr⟩ := h
    subst hb
    subst hr
    exact ⟨(cons_eraseIdx_perm hget).trans hperm, rfl, rfl⟩

/-- Witness for C2: the initial table with rank 3 accessed. -/
theorem mtf_invariant_witness :
    (3 :: (List.range 256).eraseIdx 3).Perm (List.range 256) ∧
      (3 :: (List.range 256).eraseIdx 3).get? 0 = some 3 ∧
      (3 :: (List.range 256).eraseIdx 3).tail = (List.range 256).eraseIdx 3 :=
  mtf_invariant (List.range 256) 3 3 (3 :: (List.range 256).eraseIdx 3)
    (List.Perm.refl _) rfl

/-- C3: the MTF rank accessed by a literal token with unary count `u` and
`4 + u` extra bits `extra` is `extra + ((2^u - 1) <<< 4)`; the extra bits
always satisfy `extra < 2^(4+u)`; ranks `0..15` are reached exactly with
`u = 0`, ranks `16..47` exactly with `u = 1`, and `u ≥ 2` only reaches
ranks `≥ 48`, settling the boundary ranks 15/16 and 47/48. -/
theorem literal_index_buckets :
    (∀ u extra, literalIndex u extra = extra + ((2 ^ u - 1) <<< 4)) ∧
    (∀ (r : BitReader) (k v : Nat) (r' : BitReader),
      r.bitIndex < 8 → read_bits r k = .ok (v, r') → v < 2 ^ k) ∧
    (∀ idx, idx < 16 → ∃ extra, extra < 2 ^ 4 ∧ literalIndex 0 extra = idx) ∧
    (∀ extra, extra < 2 ^ 4 → literalIndex 0 extra < 16) ∧
    (∀ u extra, 1 ≤ u → 16 ≤ literalIndex u extra) ∧
    (∀ idx, 16 ≤ idx → idx < 48 →
      ∃ extra, extra < 2 ^ 5 ∧ literalIndex 1 extra = idx) ∧
    (∀ extra, extra < 2 ^ 5 →
      16 ≤ literalIndex 1 extra ∧ literalIndex 1 extra < 48) ∧
    (∀ u extra, 2 ≤ u → 48 ≤ literalIndex u extra) := by
  refine ⟨?_, ?_, ?_, ?_, ?_, ?_, ?_, ?_⟩
  · intro u extra
    simp [literalIndex, Nat.shiftLeft_eq]
  · intro r k v r' hw h
    exact read_bits_lt hw h
  · intro idx hidx
    exact ⟨idx, by norm_num [literalIndex, Nat.shiftLeft_eq]; omega⟩
  · intro extra hextra
    simp only [literalIndex, Nat.shiftLeft_eq] at *
    omega
  · intro u extra hu
    have h2 : 2 ≤ 2 ^ u := by
      calc 2 = 2 ^ 1 := by norm_num
        _ ≤ 2 ^ u := Nat.pow_le_pow_right (by norm_num) hu
    simp only [literalIndex, Nat.shiftLeft_eq]
    omega
  · intro idx h16 h48
    refine ⟨idx - 16, by omega, ?_⟩
    simp only [literalIndex, Nat.shiftLeft_eq]
    omega
  · intro extra hextra
    simp only [literalIndex, Nat.shiftLeft_eq] at *
    omega
  · intro u extra hu
    have h2 : 4 ≤ 2 ^ u := by
      calc 4 = 2 ^ 2 := by norm_num
        _ ≤ 2 ^ u := Nat.pow_le_pow_right (by norm_num) hu
    simp only [literalIndex, Nat.shiftLeft_eq]
    omega

/-- Witness for C3: boundary ranks 15 and 16 are reachable in the `u = 0`
and `u = 1` buckets respectively. -/
theorem literal_index_buckets_witness :
    (∃ extra, extra < 2 ^ 4 ∧ literalIndex 0 extra = 15) ∧
      (∃ extra, extra < 2 ^ 5 ∧ literalIndex 1 extra = 16) :=
  ⟨literal_index_buckets.2.2.1 15 (by norm_num),
    literal_index_buckets.2.2.2.2.2.1 16 (by norm_num) (by norm_num)⟩

/-- Generalized copy-loop characterization: with the copy source `output`
fixed and `ext` the bytes appended so far, each further step appends
`output[start + i % offset]` until either `remaining` steps are done or
the target length is reached. -/
lemma copyLoop_spec :
    ∀ (remaining : Nat) (i n start offset : Nat) (output ext : List Nat),
      0 < offset → start + offset = output.length →
      copyLoop remaining i n start offset (output ++ ext) =
        output ++ ext ++
          (List.range' i (min remaining (n - (output ++ ext).length))).map
            (fun j => output.getD (start + j % offset) 0) := by
  intro remaining
  induction remaining with
  | zero => intro i n start offset output ext hoff hstart; simp [copyLoop]
  | succ remaining ih =>
    intro i n start offset output ext hoff hstart
    simp only [copyLoop]
    split
    next hle =>
      have h0 : min (remaining + 1) (n - (output ++ ext).length) = 0 := by
        omega
      rw [h0]
      simp
    next hgt =>
      have hlen : (output ++ ext).length < n := by omega
      have hidx : start + i % offset < output.length := by
        have := Nat.mod_lt i hoff
        omega
      have hget : (output ++ ext).getD (start + i % offset) 0 =
          output.getD (start + i % offset) 0 :=
        List.getD_append _ _ _ _ hidx
      rw [hget, List.append_assoc output ext
        [output.getD (start + i % offset) 0]]
      rw [ih (i + 1) n start offset output
        (ext ++ [output.getD (start + i % offset) 0]) hoff hstart]
      have hmin : min (remaining + 1) (n - (output ++ ext).length) =
          (min remaining
            (n - (output ++
              (ext ++ [output.getD (start + i % offset) 0])).length)) + 1 := by
        simp only [List.length_append, List.length_cons, List.length_nil]
        simp only [List.length_append] at hlen
        omega
      rw [hmin, List.range'_succ]
      simp [List.append_assoc]

/-- C5: byte `i` of an ordinary back-reference copy with `start =
len(output) - offset` equals `output[start + (i mod offset)]`, for exactly
the bytes emitted before the target length is reached; with `offset = 1`
this degenerates to repeating the immediately preceding byte. -/
theorem copy_cyclic :
    (∀ (L n offset : Nat) (output : List Nat),
      1 ≤ offset → offset ≤ output.length →
      copyLoop L 0 n (output.length - offset) offset output =
        output ++ (List.range (min L (n - output.length))).map
          (fun i => output.getD (output.length - offset + i % offset) 0)) ∧
    (∀ (L n : Nat) (output : List Nat),
      1 ≤ output.length →
      copyLoop L 0 n (output.length - 1) 1 output =
        output ++ List.replicate (min L (n - output.length))
          (output.getD (output.length - 1) 0)) := by
  have main : ∀ (L n offset : Nat) (output : List Nat),
      1 ≤ offset → offset ≤ output.length →
      copyLoop L 0 n (output.length - offset) offset output =
        output ++ (List.range (min L (n - output.length))).map
          (fun i => output.getD (output.length - offset + i % offset) 0) := by
    intro L n offset output hoff hle
    have h := copyLoop_spec L 0 n (output.length - offset) offset output []
      (by omega) (by omega)
    simp only [List.append_nil] at h
    rw [List.range_eq_range']
    exact h
  refine ⟨main, ?_⟩
  intro L n output hlen
  rw [main L n 1 output (le_refl 1) hlen]
  have hfun : (fun i : Nat => output.getD (output.length - 1 + i % 1) 0) =
      fun _ : Nat => output.getD (output.length - 1) 0 := by
    funext i
    simp [Nat.mod_one]
  rw [hfun, List.map_const']
  simp

/-- Witness for C5: copying 5 bytes with offset 2 from `[10, 20]` cycles
the two-byte pattern; the cap `n = 7` truncates the copy. -/
theorem copy_cyclic_witness :
    copyLoop 5 0 7 (([10, 20] : List Nat).length - 2) 2 [10, 20] =
      [10, 20] ++ (List.range (min 5 (7 - ([10, 20] : List Nat).length))).map
        (fun i => ([10, 20] : List Nat).getD
          (([10, 20] : List Nat).length - 2 + i % 2) 0) :=
  copy_cyclic.1 5 7 2 [10, 20] (by norm_num) (by norm_num)

/-- C4: the raw-run escape: a zero byte ends the run without being
emitted, a nonzero byte is appended (stopping once the target length is
reached, without consulting further bits), and the escape is entered
exactly when offset width 10 decodes offset 1; end to end, the stream
encoding the raw run `[0x41, 0x42, 0x00]` followed by a literal emits
`0x41, 0x42` and resumes token decoding. -/
theorem raw_run_escape :
    (∀ (fuel n : Nat) (output : List Nat) (r r1 r2 : BitReader),
      readOffsetWidth r = .ok (10, r1) → read_bits r1 10 = .ok (0, r2) →
      lzStep fuel n output r = rawRun fuel n output r2) ∧
    (∀ (fuel n : Nat) (output : List Nat) (r r' : BitReader),
      read_bits r 8 = .ok (0, r') →
      rawRun (fuel + 1) n output r = some (.ok (output, r'))) ∧
    (∀ (fuel n : Nat) (output : List Nat) (r : BitReader) (b : Nat)
      (r' : BitReader),
      read_bits r 8 = .ok (b, r') → b ≠ 0 → n ≤ output.length + 1 →
      rawRun (fuel + 1) n output r = some (.ok (output ++ [b], r'))) ∧
    (∀ (fuel n : Nat) (output : List Nat) (r : BitReader) (b : Nat)
      (r' : BitReader),
      read_bits r 8 = .ok (b, r') → b ≠ 0 → output.length + 1 < n →
      rawRun (fuel + 1) n output r = rawRun fuel n (output ++ [b]) r') ∧
    decompress [2, 32, 72, 8, 160, 2] 3 = some (.ok [65, 66, 5]) := by
  refine ⟨?_, ?_, ?_, ?_, rfl⟩
  · intro fuel n output r r1 r2 h1 h2
    simp [lzStep, h1, h2]
  · intro fuel n output r r' h
    simp [rawRun, h]
  · intro fuel n output r b r' h hb hn
    simp only [rawRun, h]
    rw [if_neg hb, if_pos (by simpa using hn)]
  · intro fuel n output r b r' h hb hn
    simp only [rawRun, h]
    rw [if_neg hb, if_neg (by simpa using Nat.not_le.mpr hn)]

/-- Witness for C4: concrete instantiations of the three run rules and the
dispatch from the LZ branch. -/
theorem raw_run_escape_witness :
    lzStep 3 9 [7] ⟨[1, 0], 0, 0⟩ = rawRun 3 9 [7] ⟨[1, 0], 1, 4⟩ ∧
      rawRun 1 9 [7] ⟨[0], 0, 0⟩ = some (.ok ([7], ⟨[0], 1, 0⟩)) ∧
      rawRun 1 8 [1, 2, 3, 4, 5, 6, 7] ⟨[9], 0, 0⟩ =
        some (.ok ([1, 2, 3, 4, 5, 6, 7] ++ [9], ⟨[9], 1, 0⟩)) ∧
      rawRun 2 9 [7] ⟨[9, 0], 0, 0⟩ = rawRun 1 9 ([7] ++ [9]) ⟨[9, 0], 1, 0⟩ :=
  ⟨raw_run_escape.1 3 9 [7] ⟨[1, 0], 0, 0⟩ ⟨[1, 0], 0, 2⟩ ⟨[1, 0], 1, 4⟩
      rfl rfl,
    raw_run_escape.2.1 0 9 [7] ⟨[0], 0, 0⟩ ⟨[0], 1, 0⟩ rfl,
    raw_run_escape.2.2.1 0 8 [1, 2, 3, 4, 5, 6, 7] ⟨[9], 0, 0⟩ 9 ⟨[9], 1, 0⟩
      rfl (by norm_num) (by norm_num),
    raw_run_escape.2.2.2.1 1 9 [7] ⟨[9, 0], 0, 0⟩ 9 ⟨[9, 0], 1, 0⟩
      rfl (by norm_num) (by norm_num)⟩

/-- C6: back-reference lengths are continuation-coded: starting from 3,
each 3-bit group is added, another group is read exactly when the group
equals 7, and the first group below 7 stops; length 10 takes the two
groups 7 then 0, length 9 the single group 6. -/
theorem length_continuation :
    (∀ (fuel acc : Nat) (r : BitReader) (part : Nat) (r' : BitReader),
      read_bits r 3 = .ok (part, r') → part ≠ 7 →
      readLength (fuel + 1) acc r = some (.ok (acc + part, r'))) ∧
    (∀ (fuel acc : Nat) (r r' : BitReader),
      read_bits r 3 = .ok (7, r') →
      readLength (fuel + 1) acc r = readLength fuel (acc + 7) r') ∧
    readLength 2 3 ⟨[7], 0, 0⟩ = some (.ok (10, ⟨[7], 0, 6⟩)) ∧
    readLength 1 3 ⟨[6], 0, 0⟩ = some (.ok (9, ⟨[6], 0, 3⟩)) := by
  refine ⟨?_, ?_, rfl, rfl⟩
  · intro fuel acc r part r' h hne
    simp [readLength, h, hne]
  · intro fuel acc r r' h
    simp [readLength, h]

/-- Witness for C6: a single group 6 stops immediately; a group 7
continues. -/
theorem length_continuation_witness :
    readLength (0 + 1) 3 ⟨[6], 0, 0⟩ = some (.ok (3 + 6, ⟨[6], 0, 3⟩)) ∧
      readLength (1 + 1) 3 ⟨[7], 0, 0⟩ = readLength 1 (3 + 7) ⟨[7], 0, 3⟩ :=
  ⟨length_continuation.1 0 3 ⟨[6], 0, 0⟩ 6 ⟨[6], 0, 3⟩ rfl (by norm_num),
    length_continuation.2.1 1 3 ⟨[7], 0, 0⟩ ⟨[7], 0, 3⟩ rfl⟩

/-- C7: the offset width is chosen by at most two selector bits (1,1 → 5;
1,0 → 10; 0 → 15), and an ordinary back-reference uses the 1-based offset
`v + 1` built from the width-many offset bits, copying from start position
`len(output) - (v + 1)`. -/
theorem offset_width_selection :
    (∀ (r r1 r2 : BitReader), read_bit r = .ok (1, r1) →
      read_bit r1 = .ok (1, r2) → readOffsetWidth r = .ok (5, r2)) ∧
    (∀ (r r1 r2 : BitReader), read_bit r = .ok (1, r1) →
      read_bit r1 = .ok (0, r2) → readOffsetWidth r = .ok (10, r2)) ∧
    (∀ (r r1 : BitReader), read_bit r = .ok (0, r1) →
      readOffsetWidth r = .ok (15, r1)) ∧
    (∀ (fuel n : Nat) (output : List Nat) (r : BitReader) (w : Nat)
      (r1 : BitReader) (v : Nat) (r2 : BitReader) (L : Nat) (r3 : BitReader),
      readOffsetWidth r = .ok (w, r1) → read_bits r1 w = .ok (v, r2) →
      ¬(w = 10 ∧ v + 1 = 1) → readLength fuel 3 r2 = some (.ok (L, r3)) →
      v + 1 ≤ output.length →
      lzStep fuel n output r =
        some (.ok
          (copyLoop L 0 n (output.length - (v + 1)) (v + 1) output, r3))) := by
  refine ⟨?_, ?_, ?_, ?_⟩
  · intro r r1 r2 h1 h2
    simp [readOffsetWidth, h1, h2]
  · intro r r1 r2 h1 h2
    simp [readOffsetWidth, h1, h2]
  · intro r r1 h1
    simp [readOffsetWidth, h1]
  · intro fuel n output r w r1 v r2 L r3 h1 h2 hno h3 hle
    simp only [lzStep, h1, h2, h3]
    rw [if_neg hno, if_neg (by omega)]

/-- Witness for C7: all three selector shapes on one-byte streams, and a
full back-reference step with width 5, offset 2, length 3. -/
theorem offset_width_selection_witness :
    readOffsetWidth ⟨[3], 0, 0⟩ = .ok (5, ⟨[3], 0, 2⟩) ∧
      readOffsetWidth ⟨[1], 0, 0⟩ = .ok (10, ⟨[1], 0, 2⟩) ∧
      readOffsetWidth ⟨[0], 0, 0⟩ = .ok (15, ⟨[0], 0, 1⟩) ∧
      lzStep 1 9 [5, 5] ⟨[14, 0], 0, 1⟩ =
        some (.ok
          (copyLoop 3 0 9 (([5, 5] : List Nat).length - (1 + 1)) (1 + 1)
            [5, 5], ⟨[14, 0], 1, 3⟩)) :=
  ⟨offset_width_selection.1 ⟨[3], 0, 0⟩ ⟨[3], 0, 1⟩ ⟨[3], 0, 2⟩ rfl rfl,
    offset_width_selection.2.1 ⟨[1], 0, 0⟩ ⟨[1], 0, 1⟩ ⟨[1], 0, 2⟩ rfl rfl,
    offset_width_selection.2.2.1 ⟨[0], 0, 0⟩ ⟨[0], 0, 1⟩ rfl,
    offset_width_selection.2.2.2 1 9 [5, 5] ⟨[14, 0], 0, 1⟩ 5
      ⟨[14, 0], 0, 3⟩ 1 ⟨[14, 0], 1, 0⟩ 3 ⟨[14, 0], 1, 3⟩ rfl rfl
      (by norm_num) rfl (by norm_num)⟩

/-- C8: malformed input is reported, never silently mis-decoded: a bit
read past the end of the buffer fails with the exhausted-input condition,
and a back-reference whose offset exceeds the bytes produced so far fails
with the corrupt-reference condition before any byte is copied; both
surface through `decompress`. -/
theorem error_reporting :
    (∀ r : BitReader, r.data.length ≤ r.byteIndex →
      read_bit r = .error .inputExhausted) ∧
    decompress [] 1 = some (.error .inputExhausted) ∧
    (∀ (fuel n : Nat) (output : List Nat) (r : BitReader) (w : Nat)
      (r1 : BitReader) (v : Nat) (r2 : BitReader) (L : Nat) (r3 : BitReader),
      readOffsetWidth r = .ok (w, r1) → read_bits r1 w = .ok (v, r2) →
      ¬(w = 10 ∧ v + 1 = 1) → readLength fuel 3 r2 = some (.ok (L, r3)) →
      output.length < v + 1 →
      lzStep fuel n output r = some (.error .invalidOffset)) ∧
    decompress [14, 0] 1 = some (.error .invalidOffset) := by
  refine ⟨?_, rfl, ?_, rfl⟩
  · intro r h
    simp [read_bit, h]
  · intro fuel n output r w r1 v r2 L r3 h1 h2 hno h3 hlt
    simp only [lzStep, h1, h2, h3]
    rw [if_neg hno, if_pos hlt]

/-- Witness for C8: reading from an empty buffer, and a back-reference
with offset 2 against an empty output. -/
theorem error_reporting_witness :
    read_bit ⟨[], 0, 0⟩ = .error .inputExhausted ∧
      lzStep 1 1 ([] : List Nat) ⟨[14, 0], 0, 1⟩ =
        some (.error .invalidOffset) :=
  ⟨error_reporting.1 ⟨[], 0, 0⟩ (by norm_num),
    error_reporting.2.2.1 1 1 [] ⟨[14, 0], 0, 1⟩ 5 ⟨[14, 0], 0, 3⟩ 1
      ⟨[14, 0], 1, 0⟩ 3 ⟨[14, 0], 1, 3⟩ rfl rfl (by norm_num) rfl
      (by norm_num)⟩

/-- C9: on a 256-entry MTF table, every computed index at or above 256
makes the lookup fail (the invalid-rank condition surfaced by the literal
decoder), and every index in `[0, 255]` succeeds. -/
theorem mtf_rank_check (mtf : List Nat) (hperm : mtf.Perm (List.range 256)) :
    (∀ index, 256 ≤ index → mtfApply mtf index = none) ∧
    (∀ index, index < 256 →
      ∃ b mtf', mtfApply mtf index = some (b, mtf')) ∧
    (∀ (fuel : Nat) (output : List Nat) (r : BitReader) (u : Nat)
      (r1 : BitReader) (extra : Nat) (r2 : BitReader),
      readUnary fuel r = some (.ok (u, r1)) →
      read_bits r1 (4 + u) = .ok (extra, r2) →
      256 ≤ literalIndex u extra →
      literalStep fuel mtf output r = some (.error .invalidRank)) := by
  have hlen : mtf.length = 256 := by
    have := hperm.length_eq
    simpa using this
  refine ⟨?_, ?_, ?_⟩
  · intro index hidx
    have hg : mtf.get? index = none := List.get?_eq_none.mpr (by omega)
    simp only [mtfApply]
    rw [hg]
  · intro index hidx
    cases hg : mtf.get? index with
    | none => exact absurd (List.get?_eq_none.mp hg) (by omega)
    | some b =>
      refine ⟨b, b :: mtf.eraseIdx index, ?_⟩
      simp only [mtfApply]
      rw [hg]
  · intro fuel output r u r1 extra r2 h1 h2 hidx
    have hnone : mtfApply mtf (literalIndex u extra) = none := by
      have hg : mtf.get? (literalIndex u extra) = none :=
        List.get?_eq_none.mpr (by omega)
      simp only [mtfApply]
      rw [hg]
    simp only [literalStep, h1, h2, hnone]

/-- Witness for C9: on the initial table, index 256 fails and index 255
succeeds. -/
theorem mtf_rank_check_witness :
    mtfApply (List.range 256) 256 = none ∧
      ∃ b mtf', mtfApply (List.range 256) 255 = some (b, mtf') :=
  ⟨(mtf_rank_check (List.range 256) (List.Perm.refl _)).1 256 (le_refl _),
    (mtf_rank_check (List.range 256) (List.Perm.refl _)).2.1 255
      (by norm_num)⟩

end Js2p8
